import Mathlib

/-!
Verification model of the httprequest repository (request builder in
httprequest.go / the builder source file, mock transport in the httpmock
package).

The Go code is embedded shallowly:

* byte slices and strings manipulated by the codecs are modelled as
  `List Char` (named `Bytes` below);
* the payloads handed to `json.Marshal` / `xml.Marshal` are modelled as flat
  records: a list of (field name, primitive value) pairs, mirroring the
  struct payloads used throughout the repository (for example `UserRequest`);
* the standard library codecs `encoding/json` and `encoding/xml` are modelled
  for this flat fragment: no escaping (all strings are restricted to
  characters that neither codec escapes), no whitespace skipping, no nested
  objects or arrays, fixed root element name on the XML side;
* `mime.ParseMediaType` is modelled for inputs whose parameter section is a
  semicolon separated list of token=token pairs (no quoted strings);
* fallible Go functions returning `error` become `Except Err` / `Option`;
  methods that mutate the receiver return the updated receiver;
* an `io.ReadCloser` body becomes a `BodyStream`: its data plus a consumed
  flag, so that reading twice without a reset yields nothing the second time.
-/

namespace HttpRequestProof

abbrev Bytes := List Char

/-- Primitive values appearing in the flat payloads of the repository
(ints, strings, bools, as in the test struct `UserRequest`). -/
inductive Lit where
  | int (n : Int)
  | str (s : Bytes)
  | bool (b : Bool)
deriving DecidableEq, Repr

/-- A flat payload: ordered fields of primitive values, mirroring a Go
struct (field order is the declaration order used by both Go codecs). -/
abbrev Payload := List (Bytes × Lit)

/-- The field kinds of a payload, mirroring the static type information Go
unmarshaling gets from the target struct. -/
inductive LitKind where
  | kInt
  | kStr
  | kBool
deriving DecidableEq, Repr

def kindOf : Lit → LitKind
  | .int _ => .kInt
  | .str _ => .kStr
  | .bool _ => .kBool

/-- The zero value a Go struct field keeps when unmarshaling finds no
matching member. -/
def zeroLit : LitKind → Lit
  | .kInt => .int 0
  | .kStr => .str []
  | .kBool => .bool false

abbrev Shape := List (Bytes × LitKind)

def shapeOf (p : Payload) : Shape := p.map (fun kv => (kv.1, kindOf kv.2))

/-- Characters that none of the modelled codecs escape or treat as a
delimiter: the model restricts payload strings and field names to these. -/
def plainChar (c : Char) : Bool :=
  !(c = '"' || c = '\\' || c = '<' || c = '>' || c = '&' || c = '/')

def litPlain : Lit → Bool
  | .str s => s.all plainChar
  | _ => true

/-- Well formed payload for the codec fragment: distinct field names, plain
field names, plain string values. -/
def wfPayload (p : Payload) : Prop :=
  (p.map Prod.fst).Nodup ∧ ∀ kv ∈ p, kv.1.all plainChar = true ∧ litPlain kv.2 = true

instance (p : Payload) : Decidable (wfPayload p) := by
  unfold wfPayload; infer_instance

/-! ### Decimal digits, as printed by strconv / the Go codecs -/

def digitChar (d : Nat) : Char := Char.ofNat (48 + d)

def isDigitChar (c : Char) : Bool := 48 ≤ c.toNat && c.toNat ≤ 57

/-- Decimal digit characters of a positive number, most significant first;
fuel driven so that the kernel can evaluate it. -/
def natCharsAux : Nat → Nat → Bytes
  | 0, _ => []
  | fuel + 1, n => if n = 0 then [] else natCharsAux fuel (n / 10) ++ [digitChar (n % 10)]

/-- Decimal digit characters of a natural number, most significant first. -/
def natChars (n : Nat) : Bytes :=
  if n = 0 then ['0'] else natCharsAux n n

/-- Decimal digit characters of an integer, with a leading minus sign for
negative values, exactly as Go prints integers. -/
def intRepr (i : Int) : Bytes :=
  if i < 0 then '-' :: natChars i.natAbs else natChars i.toNat

/-- Numeric value of a list of digit characters, most significant first. -/
def digitsVal (cs : Bytes) : Nat :=
  cs.foldl (fun a c => 10 * a + (c.toNat - 48)) 0

theorem digitChar_toNat {d : Nat} (h : d < 10) : (digitChar d).toNat = 48 + d := by
  interval_cases d <;> decide

theorem isDigitChar_digitChar {d : Nat} (h : d < 10) : isDigitChar (digitChar d) = true := by
  simp [isDigitChar, digitChar_toNat h]
  omega

theorem digitsVal_map_digits (ds : List Nat) (h : ∀ d ∈ ds, d < 10) :
    digitsVal (ds.reverse.map digitChar) = Nat.ofDigits 10 ds := by
  induction ds with
  | nil => simp [digitsVal, Nat.ofDigits]
  | cons d ds ih =>
    have hd : d < 10 := h d (by simp)
    have hds : ∀ x ∈ ds, x < 10 := fun x hx => h x (by simp [hx])
    simp only [List.reverse_cons, List.map_append, List.map_cons, List.map_nil]
    simp only [digitsVal, List.foldl_append, List.foldl_cons, List.foldl_nil]
    have := ih hds
    simp only [digitsVal] at this
    rw [this, Nat.ofDigits_cons, digitChar_toNat hd]
    omega

theorem natCharsAux_eq_digits (fuel : Nat) : ∀ n : Nat, n ≤ fuel →
    natCharsAux fuel n = (Nat.digits 10 n).reverse.map digitChar := by
  induction fuel with
  | zero =>
    intro n hn
    interval_cases n
    simp [natCharsAux]
  | succ fuel ih =>
    intro n hn
    by_cases h0 : n = 0
    · simp [natCharsAux, h0]
    · rw [natCharsAux, if_neg h0, ih (n / 10) (by omega),
          Nat.digits_def' (by norm_num : (1:ℕ) < 10) (Nat.pos_of_ne_zero h0)]
      simp

theorem natChars_eq_digits {n : Nat} (h : n ≠ 0) :
    natChars n = (Nat.digits 10 n).reverse.map digitChar := by
  simp only [natChars, h, if_false]
  exact natCharsAux_eq_digits n n le_rfl

theorem digitsVal_natChars (n : Nat) : digitsVal (natChars n) = n := by
  by_cases h : n = 0
  · subst h; decide
  · rw [natChars_eq_digits h,
        digitsVal_map_digits _ (fun d hd => Nat.digits_lt_base (by norm_num) hd)]
    exact Nat.ofDigits_digits 10 n

theorem natChars_all_digit (n : Nat) : ∀ c ∈ natChars n, isDigitChar c = true := by
  intro c hc
  by_cases h : n = 0
  · subst h; simp [natChars] at hc; subst hc; decide
  · rw [natChars_eq_digits h] at hc
    simp only [List.mem_map, List.mem_reverse] at hc
    obtain ⟨d, hd, rfl⟩ := hc
    exact isDigitChar_digitChar (Nat.digits_lt_base (by norm_num) hd)

theorem natChars_ne_nil (n : Nat) : natChars n ≠ [] := by
  by_cases h : n = 0
  · subst h; simp [natChars]
  · rw [natChars_eq_digits h]
    intro heq
    have hnn : Nat.digits 10 n ≠ [] := Nat.digits_ne_nil_iff_ne_zero.mpr h
    simp at heq
    exact hnn heq

/-- Digit characters have code points 48 to 57; anything outside that range
differs from all of them. -/
theorem digit_toNat_bounds {c : Char} (h : isDigitChar c = true) :
    48 ≤ c.toNat ∧ c.toNat ≤ 57 := by
  simp [isDigitChar] at h; exact h

/-! ### Scanning primitives shared by the codec models -/

/-- True when the next character of the remaining input, if any, fails the
predicate: the condition under which a takeWhile scan stops exactly at the
boundary. -/
def nextNot (p : Char → Bool) : Bytes → Bool
  | [] => true
  | c :: _ => !p c

theorem takeWhile_all_append {p : Char → Bool} {l rest : Bytes}
    (h : ∀ c ∈ l, p c = true) (hr : nextNot p rest = true) :
    (l ++ rest).takeWhile p = l := by
  induction l with
  | nil =>
    cases rest with
    | nil => rfl
    | cons c cs =>
      simp [nextNot] at hr
      simp [List.takeWhile, hr]
  | cons c l ih =>
    have hc : p c = true := h c (by simp)
    have ih2 := ih (fun x hx => h x (by simp [hx]))
    simp [List.takeWhile_cons, hc, ih2]

theorem dropWhile_all_append {p : Char → Bool} {l rest : Bytes}
    (h : ∀ c ∈ l, p c = true) (hr : nextNot p rest = true) :
    (l ++ rest).dropWhile p = rest := by
  induction l with
  | nil =>
    cases rest with
    | nil => rfl
    | cons c cs =>
      simp [nextNot] at hr
      simp [List.dropWhile, hr]
  | cons c l ih =>
    have hc : p c = true := h c (by simp)
    have ih2 := ih (fun x hx => h x (by simp [hx]))
    simp [List.dropWhile_cons, hc, ih2]

/-- Scan a nonempty run of decimal digits, as strconv does inside the Go
codecs; returns the value and the rest of the input. -/
def parseNat (cs : Bytes) : Option (Nat × Bytes) :=
  let ds := cs.takeWhile isDigitChar
  if ds.isEmpty then none else some (digitsVal ds, cs.dropWhile isDigitChar)

theorem parseNat_encode (n : Nat) {rest : Bytes} (hr : nextNot isDigitChar rest = true) :
    parseNat (natChars n ++ rest) = some (n, rest) := by
  unfold parseNat
  rw [takeWhile_all_append (natChars_all_digit n) hr,
      dropWhile_all_append (natChars_all_digit n) hr]
  have hne : natChars n ≠ [] := natChars_ne_nil n
  simp only [List.isEmpty_iff]
  rw [if_neg hne, digitsVal_natChars]

/-- Scan a double quoted string with no escapes (the fragment of the JSON
string grammar the model covers). -/
def parseQuoted (cs : Bytes) : Option (Bytes × Bytes) :=
  match cs with
  | [] => none
  | c :: cs1 =>
    if c = '"' then
      match cs1.dropWhile (fun x => !(x = '"')) with
      | [] => none
      | c2 :: rest =>
        if c2 = '"' then some (cs1.takeWhile (fun x => !(x = '"')), rest) else none
    else none

theorem plain_not_quote {c : Char} (h : plainChar c = true) : (!(c = '"')) = true := by
  simp [plainChar] at h
  simp [h.1]

theorem parseQuoted_encode {s rest : Bytes} (hs : s.all plainChar = true) :
    parseQuoted ('"' :: (s ++ '"' :: rest)) = some (s, rest) := by
  have hall : ∀ c ∈ s, (!(c = '"')) = true := by
    intro c hc
    exact plain_not_quote (by simpa using (List.all_eq_true.mp hs c hc))
  have hnext : nextNot (fun x => !(x = '"')) ('"' :: rest) = true := by
    simp [nextNot]
  rw [parseQuoted]
  simp only [if_pos rfl]
  rw [dropWhile_all_append hall hnext, takeWhile_all_append hall hnext]
  simp

/-! ### The JSON codec model (encoding/json, flat fragment) -/

/-- JSON text of a primitive value, as Go json.Marshal prints it for the
plain fragment (no escaping needed). -/
def jsonEncodeLit : Lit → Bytes
  | .int n => intRepr n
  | .str s => '"' :: s ++ ['"']
  | .bool true => ['t', 'r', 'u', 'e']
  | .bool false => ['f', 'a', 'l', 's', 'e']

/-- Scan one JSON primitive value: a quoted string, a signed decimal
number, or a bool literal. -/
def parseLit (cs : Bytes) : Option (Lit × Bytes) :=
  match cs with
  | [] => none
  | c :: cs1 =>
    if c = '"' then (parseQuoted (c :: cs1)).map (fun x => (.str x.1, x.2))
    else if c = '-' then (parseNat cs1).map (fun x => (.int (-(x.1 : Int)), x.2))
    else if (c :: cs1).take 4 = ['t', 'r', 'u', 'e'] then some (.bool true, (c :: cs1).drop 4)
    else if (c :: cs1).take 5 = ['f', 'a', 'l', 's', 'e'] then
      some (.bool false, (c :: cs1).drop 5)
    else (parseNat (c :: cs1)).map (fun x => (.int (x.1 : Int), x.2))

theorem parseLit_encode (v : Lit) {rest : Bytes} (hv : litPlain v = true)
    (hr : nextNot isDigitChar rest = true) :
    parseLit (jsonEncodeLit v ++ rest) = some (v, rest) := by
  cases v with
  | str s =>
    simp only [jsonEncodeLit, List.cons_append, List.append_assoc, List.singleton_append]
    rw [parseLit]
    simp only [if_pos rfl]
    rw [parseQuoted_encode (by simpa [litPlain] using hv)]
    rfl
  | bool b =>
    cases b with
    | true =>
      simp only [jsonEncodeLit, List.cons_append, List.nil_append]
      rw [parseLit]
      simp
    | false =>
      simp only [jsonEncodeLit, List.cons_append, List.nil_append]
      rw [parseLit]
      simp
  | int n =>
    by_cases hneg : n < 0
    · have henc : jsonEncodeLit (.int n) = '-' :: natChars n.natAbs := by
        simp [jsonEncodeLit, intRepr, hneg]
      rw [henc, List.cons_append, parseLit]
      simp only [if_neg (by decide : ¬('-' = '"')), if_pos rfl]
      rw [parseNat_encode n.natAbs hr]
      have habs : (-(n.natAbs : Int)) = n := by omega
      simp only [Option.map_some', habs]
      simp
    · have henc : jsonEncodeLit (.int n) = natChars n.toNat := by
        simp [jsonEncodeLit, intRepr, hneg]
      rw [henc]
      obtain ⟨c, t, hct⟩ : ∃ c t, natChars n.toNat = c :: t := by
        cases h : natChars n.toNat with
        | nil => exact absurd h (natChars_ne_nil _)
        | cons c t => exact ⟨c, t, rfl⟩
      have hcd : isDigitChar c = true := natChars_all_digit n.toNat c (by rw [hct]; simp)
      have hb := digit_toNat_bounds hcd
      rw [hct, List.cons_append, parseLit]
      have h1 : ¬(c = '"') := by
        intro h; subst h; revert hb; decide
      have h2 : ¬(c = '-') := by
        intro h; subst h; revert hb; decide
      have h3 : ¬((c :: (t ++ rest)).take 4 = ['t', 'r', 'u', 'e']) := by
        intro h
        simp only [List.take_succ_cons, List.cons.injEq] at h
        have := h.1; subst this; revert hb; decide
      have h4 : ¬((c :: (t ++ rest)).take 5 = ['f', 'a', 'l', 's', 'e']) := by
        intro h
        simp only [List.take_succ_cons, List.cons.injEq] at h
        have := h.1; subst this; revert hb; decide
      rw [if_neg h1, if_neg h2, if_neg h3, if_neg h4, ← List.cons_append, ← hct,
          parseNat_encode n.toNat hr]
      have htn : ((n.toNat : Int)) = n := by omega
      simp only [Option.map_some', htn]

/-- JSON text of the members of a flat object, comma separated, in field
order (Go json.Marshal emits struct fields in declaration order). -/
def encodeMembersJ : Payload → Bytes
  | [] => []
  | [(k, v)] => '"' :: k ++ '"' :: ':' :: jsonEncodeLit v
  | (k, v) :: rest => '"' :: k ++ '"' :: ':' :: jsonEncodeLit v ++ ',' :: encodeMembersJ rest

/-- JSON text of a flat object, as Go json.Marshal prints a struct of
primitive fields. -/
def jsonMarshalP (p : Payload) : Bytes := '{' :: (encodeMembersJ p ++ ['}'])

/-- Scan the members of a JSON object after the opening brace, consuming
the closing brace; fuel bounds the number of members. -/
def parseMembersJ : Nat → Bytes → Option (List (Bytes × Lit) × Bytes)
  | 0, _ => none
  | fuel + 1, cs =>
    match parseQuoted cs with
    | none => none
    | some (k, cs1) =>
      match cs1 with
      | [] => none
      | c :: cs2 =>
        if c = ':' then
          match parseLit cs2 with
          | none => none
          | some (v, cs3) =>
            match cs3 with
            | [] => none
            | c2 :: cs4 =>
              if c2 = ',' then
                match parseMembersJ fuel cs4 with
                | some (ms, r) => some ((k, v) :: ms, r)
                | none => none
              else if c2 = '}' then some ([(k, v)], cs4)
              else none
        else none

/-- Scan a flat JSON object (the fragment of the JSON grammar the model
covers: an object of primitive members, no whitespace). -/
def jsonParseObj : Bytes → Option (Payload × Bytes)
  | [] => none
  | c :: cs =>
    if c = '{' then
      match cs with
      | [] => none
      | c2 :: _ =>
        if c2 = '}' then some ([], cs.tail) else parseMembersJ cs.length cs
    else none

theorem nextNot_cons (p : Char → Bool) (c : Char) (l : Bytes) :
    nextNot p (c :: l) = !p c := rfl

theorem parseMembersJ_encode (p : Payload) (rest : Bytes) (fuel : Nat)
    (hne : p ≠ []) (hfuel : p.length ≤ fuel)
    (hwf : ∀ kv ∈ p, kv.1.all plainChar = true ∧ litPlain kv.2 = true) :
    parseMembersJ fuel (encodeMembersJ p ++ '}' :: rest) = some (p, rest) := by
  induction p generalizing fuel rest with
  | nil => exact absurd rfl hne
  | cons kv p ih =>
    obtain ⟨k, v⟩ := kv
    have hk : k.all plainChar = true := (hwf (k, v) (by simp)).1
    have hv : litPlain v = true := (hwf (k, v) (by simp)).2
    cases fuel with
    | zero => simp at hfuel
    | succ fuel =>
      cases p with
      | nil =>
        have hnn : nextNot isDigitChar ('}' :: rest) = true := by
          rw [nextNot_cons]; decide
        simp only [encodeMembersJ, List.cons_append, List.append_assoc]
        rw [parseMembersJ, parseQuoted_encode hk]
        simp [parseLit_encode v hv hnn]
      | cons kv2 p2 =>
        have hnn : nextNot isDigitChar
            (',' :: (encodeMembersJ (kv2 :: p2) ++ '}' :: rest)) = true := by
          rw [nextNot_cons]; decide
        have hrec := ih rest fuel (by simp) (by simp at hfuel ⊢; omega)
          (fun x hx => hwf x (by simp [hx]))
        simp only [encodeMembersJ, List.cons_append, List.append_assoc]
        rw [parseMembersJ, parseQuoted_encode hk]
        simp [parseLit_encode v hv hnn, hrec]

theorem length_le_encodeMembersJ (p : Payload) : p.length ≤ (encodeMembersJ p).length := by
  induction p with
  | nil => simp [encodeMembersJ]
  | cons kv p ih =>
    obtain ⟨k, v⟩ := kv
    cases p with
    | nil => simp [encodeMembersJ]
    | cons kv2 p2 =>
      simp only [encodeMembersJ, List.length_cons, List.length_append] at ih ⊢
      omega

theorem encodeMembersJ_cons_head (k : Bytes) (v : Lit) (p : Payload) :
    ∃ t, encodeMembersJ ((k, v) :: p) = '"' :: t := by
  cases p with
  | nil => exact ⟨_, rfl⟩
  | cons kv2 p2 => exact ⟨_, rfl⟩

theorem jsonParseObj_marshal (p : Payload)
    (hwf : ∀ kv ∈ p, kv.1.all plainChar = true ∧ litPlain kv.2 = true) :
    jsonParseObj (jsonMarshalP p) = some (p, []) := by
  cases p with
  | nil => rfl
  | cons kv p2 =>
    obtain ⟨k, v⟩ := kv
    obtain ⟨t, ht⟩ := encodeMembersJ_cons_head k v p2
    have hlen : ((k, v) :: p2).length ≤ (encodeMembersJ ((k, v) :: p2) ++ ['}']).length := by
      have := length_le_encodeMembersJ ((k, v) :: p2)
      simp only [List.length_append, List.length_cons, List.length_nil] at this ⊢
      omega
    have hmem := parseMembersJ_encode ((k, v) :: p2) []
      (encodeMembersJ ((k, v) :: p2) ++ ['}']).length (by simp) hlen hwf
    unfold jsonMarshalP
    rw [jsonParseObj.eq_def, ht]
    simp only [List.cons_append, if_pos rfl]
    rw [if_neg (by decide : ¬('"' = '}'))]
    rw [show ('"' :: (t ++ ['}'])).length = (encodeMembersJ ((k, v) :: p2) ++ ['}']).length by
      rw [← List.cons_append, ← ht]]
    rw [show ('"' :: (t ++ ['}'])) = encodeMembersJ ((k, v) :: p2) ++ ['}'] by
      rw [← List.cons_append, ← ht]]
    simpa using hmem

/-! ### Binding parsed members into a typed struct (the target of Go
unmarshaling) -/

def lookupMember {α : Type} : List (Bytes × α) → Bytes → Option α
  | [], _ => none
  | (k, v) :: rest, key => if k = key then some v else lookupMember rest key

/-- Fill the fields of a struct of the given shape from parsed members,
matching members to fields by name as Go unmarshaling does: a missing
member leaves the zero value, a member of the wrong kind is an error. -/
def bindShape {α : Type} (conv : LitKind → α → Option Lit) :
    Shape → List (Bytes × α) → Option Payload
  | [], _ => some []
  | (k, knd) :: srest, ms =>
    match lookupMember ms k with
    | some v =>
      match conv knd v with
      | some lv => (bindShape conv srest ms).map (fun q => (k, lv) :: q)
      | none => none
    | none => (bindShape conv srest ms).map (fun q => (k, zeroLit knd) :: q)

/-- Kind directed coercion for JSON members: the parsed value must already
have the kind of the target field. -/
def convJson (knd : LitKind) (v : Lit) : Option Lit :=
  if kindOf v = knd then some v else none

theorem bindShape_cons_irrel {α : Type} (conv : LitKind → α → Option Lit)
    (sh : Shape) (k : Bytes) (a : α) (ms : List (Bytes × α))
    (h : ∀ e ∈ sh, e.1 ≠ k) :
    bindShape conv sh ((k, a) :: ms) = bindShape conv sh ms := by
  induction sh with
  | nil => rfl
  | cons e srest ih =>
    obtain ⟨k2, knd⟩ := e
    have hk2 : k2 ≠ k := h (k2, knd) (by simp)
    have hlk : lookupMember ((k, a) :: ms) k2 = lookupMember ms k2 := by
      simp only [lookupMember]
      rw [if_neg (fun hh => hk2 hh.symm)]
    simp only [bindShape, hlk, ih (fun e he => h e (by simp [he]))]

theorem bindShape_roundtrip {α : Type} (conv : LitKind → α → Option Lit) (f : Lit → α)
    (p : Payload)
    (hconv : ∀ kv ∈ p, conv (kindOf kv.2) (f kv.2) = some kv.2)
    (hnodup : (p.map Prod.fst).Nodup) :
    bindShape conv (shapeOf p) (p.map (fun kv => (kv.1, f kv.2))) = some p := by
  induction p with
  | nil => rfl
  | cons kv p ih =>
    obtain ⟨k, v⟩ := kv
    have hc : conv (kindOf v) (f v) = some v := hconv (k, v) (by simp)
    have hlk : lookupMember ((k, f v) :: p.map (fun kv => (kv.1, f kv.2))) k = some (f v) := by
      simp [lookupMember]
    have hknotin : ∀ e ∈ shapeOf p, e.1 ≠ k := by
      intro e he hek
      simp only [shapeOf, List.mem_map] at he
      obtain ⟨kv2, hkv2, rfl⟩ := he
      simp only [List.map_cons, List.nodup_cons, List.mem_map] at hnodup
      exact hnodup.1 ⟨kv2, hkv2, hek⟩
    have hirrel := bindShape_cons_irrel conv (shapeOf p) k (f v)
      (p.map (fun kv => (kv.1, f kv.2))) hknotin
    have ih2 := ih (fun kv hkv => hconv kv (by simp [hkv]))
      (by simp only [List.map_cons, List.nodup_cons] at hnodup; exact hnodup.2)
    have hsh : shapeOf ((k, v) :: p) = (k, kindOf v) :: shapeOf p := rfl
    have hmm : ((k, v) :: p).map (fun kv => (kv.1, f kv.2)) =
        (k, f v) :: p.map (fun kv => (kv.1, f kv.2)) := rfl
    rw [hsh, hmm, bindShape, hlk]
    simp only [hc, hirrel, ih2, Option.map_some']

/-- Model of Go json.Unmarshal into a struct of the given shape: parse the
object, require full consumption, bind members to fields by name. -/
def jsonUnmarshalShape (shape : Shape) (bs : Bytes) : Option Payload :=
  match jsonParseObj bs with
  | some (ms, []) => bindShape convJson shape ms
  | _ => none

theorem jsonUnmarshalShape_marshal (p : Payload) (hwf : wfPayload p) :
    jsonUnmarshalShape (shapeOf p) (jsonMarshalP p) = some p := by
  unfold jsonUnmarshalShape
  rw [jsonParseObj_marshal p hwf.2]
  have hb := bindShape_roundtrip convJson id p
    (fun kv _ => by simp [convJson]) hwf.1
  simpa using hb

/-! ### The XML codec model (encoding/xml, flat fragment) -/

/-- Character data of a primitive value, as Go xml.Marshal prints it. -/
def xmlTextOf : Lit → Bytes
  | .int n => intRepr n
  | .str s => s
  | .bool true => ['t', 'r', 'u', 'e']
  | .bool false => ['f', 'a', 'l', 's', 'e']

/-- Fixed root element name of the XML model (Go uses the struct type name;
the claims do not depend on it). -/
def xmlRoot : Bytes := ['d', 'o', 'c']

/-- One field as an XML element: open tag, character data, close tag. -/
def encodeMemberX (k : Bytes) (v : Lit) : Bytes :=
  '<' :: k ++ '>' :: xmlTextOf v ++ '<' :: '/' :: k ++ ['>']

def encodeMembersX : Payload → Bytes
  | [] => []
  | (k, v) :: rest => encodeMemberX k v ++ encodeMembersX rest

/-- XML text of a flat payload, as Go xml.Marshal prints a struct of
primitive fields: one child element per field inside a root element. -/
def xmlMarshalP (p : Payload) : Bytes :=
  '<' :: xmlRoot ++ '>' :: encodeMembersX p ++ '<' :: '/' :: xmlRoot ++ ['>']

/-- Scan child elements until a closing tag begins; fuel bounds the number
of elements. Yields each element as (tag name, character data). -/
def parseMembersX : Nat → Bytes → Option (List (Bytes × Bytes) × Bytes)
  | 0, _ => none
  | fuel + 1, cs =>
    match cs with
    | [] => none
    | c :: cs1 =>
      if c = '<' then
        if cs1.take 1 = ['/'] then some ([], c :: cs1)
        else
          let k := cs1.takeWhile (fun x => !(x = '>'))
          match cs1.dropWhile (fun x => !(x = '>')) with
          | [] => none
          | c3 :: cs2 =>
            if c3 = '>' then
              let txt := cs2.takeWhile (fun x => !(x = '<'))
              match cs2.dropWhile (fun x => !(x = '<')) with
              | [] => none
              | c4 :: cs3 =>
                if c4 = '<' then
                  match cs3 with
                  | [] => none
                  | c5 :: cs4 =>
                    if c5 = '/' then
                      if cs4.take k.length = k then
                        match cs4.drop k.length with
                        | [] => none
                        | c6 :: cs5 =>
                          if c6 = '>' then
                            match parseMembersX fuel cs5 with
                            | some (ms, r) => some ((k, txt) :: ms, r)
                            | none => none
                          else none
                      else none
                    else none
                else none
            else none
      else none

/-- Scan a whole document: root open tag, child elements, root close tag. -/
def xmlParseDoc (bs : Bytes) : Option (List (Bytes × Bytes) × Bytes) :=
  match bs with
  | [] => none
  | c :: cs =>
    if c = '<' then
      if cs.take xmlRoot.length = xmlRoot then
        match cs.drop xmlRoot.length with
        | [] => none
        | c2 :: cs2 =>
          if c2 = '>' then
            match parseMembersX cs2.length cs2 with
            | none => none
            | some (ms, rest) =>
              match rest with
              | [] => none
              | r1 :: rest1 =>
                if r1 = '<' then
                  match rest1 with
                  | [] => none
                  | r2 :: rest2 =>
                    if r2 = '/' then
                      if rest2.take xmlRoot.length = xmlRoot then
                        match rest2.drop xmlRoot.length with
                        | [] => none
                        | r3 :: rest3 => if r3 = '>' then some (ms, rest3) else none
                      else none
                    else none
                else none
          else none
      else none
    else none

/-- Parse character data as a whole signed decimal integer, as the Go xml
decoder does for an int field. -/
def parseIntAll (txt : Bytes) : Option Lit :=
  match txt with
  | [] => none
  | c :: cs =>
    if c = '-' then
      match parseNat cs with
      | some (n, []) => some (.int (-(n : Int)))
      | _ => none
    else
      match parseNat (c :: cs) with
      | some (n, []) => some (.int (n : Int))
      | _ => none

/-- Kind directed conversion of XML character data into a field value, as
the Go xml decoder converts chardata per the field type. -/
def convXml (knd : LitKind) (txt : Bytes) : Option Lit :=
  match knd with
  | .kStr => some (.str txt)
  | .kInt => parseIntAll txt
  | .kBool =>
    if txt = ['t', 'r', 'u', 'e'] then some (.bool true)
    else if txt = ['f', 'a', 'l', 's', 'e'] then some (.bool false)
    else none

/-- Model of Go xml.Unmarshal into a struct of the given shape. -/
def xmlUnmarshalShape (shape : Shape) (bs : Bytes) : Option Payload :=
  match xmlParseDoc bs with
  | some (ms, []) => bindShape convXml shape ms
  | _ => none

theorem plain_ne {c : Char} (h : plainChar c = true) :
    c ≠ '"' ∧ c ≠ '\\' ∧ c ≠ '<' ∧ c ≠ '>' ∧ c ≠ '&' ∧ c ≠ '/' := by
  simp [plainChar] at h
  tauto

theorem intRepr_all_numeric (n : Int) :
    ∀ c ∈ intRepr n, isDigitChar c = true ∨ c = '-' := by
  intro c hc
  unfold intRepr at hc
  by_cases h : n < 0
  · simp only [h, if_true, List.mem_cons] at hc
    rcases hc with h1 | h2
    · right; exact h1
    · left; exact natChars_all_digit _ c h2
  · simp only [h, if_false] at hc
    left; exact natChars_all_digit _ c hc

theorem xmlTextOf_no_lt {v : Lit} (hv : litPlain v = true) :
    ∀ c ∈ xmlTextOf v, (!(c = '<')) = true := by
  intro c hc
  cases v with
  | str s =>
    simp only [xmlTextOf] at hc
    have hp := plain_ne (List.all_eq_true.mp hv c hc)
    simp [hp.2.2.1]
  | bool b =>
    cases b with
    | true =>
      simp only [xmlTextOf] at hc; simp at hc
      rcases hc with rfl | rfl | rfl | rfl <;> decide
    | false =>
      simp only [xmlTextOf] at hc; simp at hc
      rcases hc with rfl | rfl | rfl | rfl | rfl <;> decide
  | int n =>
    rcases intRepr_all_numeric n c (by simpa [xmlTextOf] using hc) with hd | hm
    · have := digit_toNat_bounds hd
      simp only [Bool.not_eq_true']
      by_contra hcc
      simp at hcc
      subst hcc
      revert this
      decide
    · subst hm; decide

theorem parseIntAll_intRepr (n : Int) : parseIntAll (intRepr n) = some (.int n) := by
  by_cases h : n < 0
  · have henc : intRepr n = '-' :: natChars n.natAbs := by simp [intRepr, h]
    rw [henc, parseIntAll]
    simp only [if_pos rfl]
    have hp := @parseNat_encode n.natAbs [] rfl
    rw [List.append_nil] at hp
    rw [hp]
    show some (Lit.int (-(n.natAbs : Int))) = some (Lit.int n)
    have habs : (-(n.natAbs : Int)) = n := by omega
    rw [habs]
  · have henc : intRepr n = natChars n.toNat := by simp [intRepr, h]
    obtain ⟨c, t, hct⟩ : ∃ c t, natChars n.toNat = c :: t := by
      cases hh : natChars n.toNat with
      | nil => exact absurd hh (natChars_ne_nil _)
      | cons c t => exact ⟨c, t, rfl⟩
    have hcd : isDigitChar c = true := natChars_all_digit n.toNat c (by rw [hct]; simp)
    have hb := digit_toNat_bounds hcd
    have hcm : ¬(c = '-') := by
      intro hh; subst hh; revert hb; decide
    rw [henc, hct, parseIntAll, if_neg hcm, ← hct]
    have hp := @parseNat_encode n.toNat [] rfl
    rw [List.append_nil] at hp
    rw [hp]
    show some (Lit.int ((n.toNat : Int))) = some (Lit.int n)
    have htn : ((n.toNat : Int)) = n := by omega
    rw [htn]

theorem convXml_roundtrip {v : Lit} (hv : litPlain v = true) :
    convXml (kindOf v) (xmlTextOf v) = some v := by
  cases v with
  | int n => simpa [convXml, kindOf, xmlTextOf] using parseIntAll_intRepr n
  | str s => rfl
  | bool b => cases b <;> rfl

theorem plain_take_one_ne_slash {k rest : Bytes} (hk : k.all plainChar = true) :
    ¬((k ++ '>' :: rest).take 1 = ['/']) := by
  cases k with
  | nil => simp
  | cons c t =>
    have hp := plain_ne (List.all_eq_true.mp hk c (by simp))
    simp [List.take_succ_cons]
    intro hc
    exact absurd hc hp.2.2.2.2.2

abbrev textMembers (p : Payload) : List (Bytes × Bytes) :=
  p.map (fun kv => (kv.1, xmlTextOf kv.2))

theorem parseMembersX_encode (p : Payload) (rest : Bytes) (fuel : Nat)
    (hfuel : p.length + 1 ≤ fuel)
    (hwf : ∀ kv ∈ p, kv.1.all plainChar = true ∧ litPlain kv.2 = true) :
    parseMembersX fuel (encodeMembersX p ++ '<' :: '/' :: rest) =
      some (textMembers p, '<' :: '/' :: rest) := by
  induction p generalizing fuel rest with
  | nil =>
    cases fuel with
    | zero => simp at hfuel
    | succ fuel =>
      simp only [encodeMembersX, List.nil_append]
      rw [parseMembersX]
      simp
  | cons kv p ih =>
    obtain ⟨k, v⟩ := kv
    have hk : k.all plainChar = true := (hwf (k, v) (by simp)).1
    have hv : litPlain v = true := (hwf (k, v) (by simp)).2
    cases fuel with
    | zero => simp at hfuel
    | succ fuel =>
      have hkgt : ∀ c ∈ k, (!(c = '>')) = true := by
        intro c hc
        have hp := plain_ne (List.all_eq_true.mp hk c hc)
        simp [hp.2.2.2.1]
      have htxt : ∀ c ∈ xmlTextOf v, (!(c = '<')) = true := xmlTextOf_no_lt hv
      have hrec := ih rest fuel (by simp at hfuel ⊢; omega)
        (fun x hx => hwf x (by simp [hx]))
      have hnoslash : ¬((k ++ '>' :: (xmlTextOf v ++ '<' :: '/' :: (k ++ '>' ::
          (encodeMembersX p ++ '<' :: '/' :: rest)))).take 1 = ['/']) :=
        plain_take_one_ne_slash hk
      have htk : (k ++ '>' :: (xmlTextOf v ++ '<' :: '/' :: (k ++ '>' ::
            (encodeMembersX p ++ '<' :: '/' :: rest)))).takeWhile (fun x => !(x = '>')) = k :=
        takeWhile_all_append hkgt (by rw [nextNot_cons]; decide)
      have hdr : (k ++ '>' :: (xmlTextOf v ++ '<' :: '/' :: (k ++ '>' ::
            (encodeMembersX p ++ '<' :: '/' :: rest)))).dropWhile (fun x => !(x = '>')) =
          '>' :: (xmlTextOf v ++ '<' :: '/' :: (k ++ '>' ::
            (encodeMembersX p ++ '<' :: '/' :: rest))) :=
        dropWhile_all_append hkgt (by rw [nextNot_cons]; decide)
      have htk2 : (xmlTextOf v ++ '<' :: '/' :: (k ++ '>' ::
            (encodeMembersX p ++ '<' :: '/' :: rest))).takeWhile (fun x => !(x = '<')) =
          xmlTextOf v :=
        takeWhile_all_append htxt (by rw [nextNot_cons]; decide)
      have hdr2 : (xmlTextOf v ++ '<' :: '/' :: (k ++ '>' ::
            (encodeMembersX p ++ '<' :: '/' :: rest))).dropWhile (fun x => !(x = '<')) =
          '<' :: '/' :: (k ++ '>' :: (encodeMembersX p ++ '<' :: '/' :: rest)) :=
        dropWhile_all_append htxt (by rw [nextNot_cons]; decide)
      simp only [encodeMembersX, encodeMemberX, List.cons_append, List.append_assoc,
        List.nil_append]
      rw [parseMembersX]
      simp only [eq_self_iff_true, if_true]
      rw [if_neg hnoslash, hdr]
      simp only [eq_self_iff_true, if_true]
      rw [htk2, hdr2]
      simp only [htk, eq_self_iff_true, if_true, List.take_left, List.drop_left, hrec]
      simp [textMembers]

theorem length_le_encodeMembersX (p : Payload) : p.length ≤ (encodeMembersX p).length := by
  induction p with
  | nil => simp [encodeMembersX]
  | cons kv p ih =>
    obtain ⟨k, v⟩ := kv
    simp only [encodeMembersX, encodeMemberX, List.length_cons, List.length_append] at ih ⊢
    omega

theorem xmlParseDoc_marshal (p : Payload)
    (hwf : ∀ kv ∈ p, kv.1.all plainChar = true ∧ litPlain kv.2 = true) :
    xmlParseDoc (xmlMarshalP p) = some (textMembers p, []) := by
  have hlen : p.length + 1 ≤
      (encodeMembersX p ++ '<' :: '/' :: (xmlRoot ++ ['>'])).length := by
    have := length_le_encodeMembersX p
    simp only [List.length_append, List.length_cons]
    omega
  have hmem := parseMembersX_encode p (xmlRoot ++ ['>'])
    (encodeMembersX p ++ '<' :: '/' :: (xmlRoot ++ ['>'])).length hlen hwf
  unfold xmlMarshalP
  rw [xmlParseDoc.eq_def]
  simp only [List.cons_append, List.append_assoc, if_pos rfl, List.take_left, List.drop_left]
  rw [hmem]
  simp [List.take_left, List.drop_left]

theorem xmlUnmarshalShape_marshal (p : Payload) (hwf : wfPayload p) :
    xmlUnmarshalShape (shapeOf p) (xmlMarshalP p) = some p := by
  unfold xmlUnmarshalShape
  rw [xmlParseDoc_marshal p hwf.2]
  exact bindShape_roundtrip convXml xmlTextOf p
    (fun kv hkv => convXml_roundtrip (hwf.2 kv hkv).2) hwf.1

/-! ### Header model (net/http Header as used by the repository: the keys
passed in are already canonical, so key canonicalization is not modelled) -/

abbrev Header := List (Bytes × List Bytes)

/-- Header.Set: replace the values of the key with the single value. -/
def assocSet : Header → Bytes → Bytes → Header
  | [], k, v => [(k, [v])]
  | (k2, vs) :: rest, k, v =>
    if k2 = k then (k2, [v]) :: rest else (k2, vs) :: assocSet rest k v

/-- Header.Add: append the value to the values of the key. -/
def assocAdd : Header → Bytes → Bytes → Header
  | [], k, v => [(k, [v])]
  | (k2, vs) :: rest, k, v =>
    if k2 = k then (k2, vs ++ [v]) :: rest else (k2, vs) :: assocAdd rest k v

/-- Lookup in a possibly nil header map (a nil map has no entries). -/
def headerGet (h : Option Header) (k : Bytes) : Option (List Bytes) :=
  match h with
  | none => none
  | some hs => lookupMember hs k

/-! ### Media types (constants of the builder source file, and a model of
mime.ParseMediaType) -/

def MIMEApplicationJson : Bytes := "application/json".toList

def MIMEApplicationXml : Bytes := "application/xml".toList

def MIMETextXml : Bytes := "text/xml".toList

def HeaderAuthorization : Bytes := "Authorization".toList

def HeaderContentType : Bytes := "Content-Type".toList

def isSpaceChar (c : Char) : Bool := c = ' ' || c = '\t'

/-- RFC 1521 token characters accepted by the Go mime package (backquote
and apostrophe, also tokens in Go, are left out of the model). -/
def isTokenChar (c : Char) : Bool :=
  c.isAlpha || c.isDigit || c = '!' || c = '#' || c = '$' || c = '%' || c = '&' ||
    c = '*' || c = '+' || c = '-' || c = '.' || c = '^' || c = '_' || c = '|' || c = '~'

def trimSpaces (l : Bytes) : Bytes :=
  ((l.dropWhile isSpaceChar).reverse.dropWhile isSpaceChar).reverse

/-- The validity check Go applies to the media type part: a token, or
token slash token. -/
def checkMediaType (mt : Bytes) : Bool :=
  let maj := mt.takeWhile (fun c => !(c = '/'))
  match mt.dropWhile (fun c => !(c = '/')) with
  | [] => !maj.isEmpty && maj.all isTokenChar
  | _ :: sub => !maj.isEmpty && maj.all isTokenChar && !sub.isEmpty && sub.all isTokenChar

/-- Validity of the parameter section: a semicolon separated list of
attribute=value pairs of tokens (quoted string values are outside the
modelled fragment); fuel driven, with fuel at least the input length. -/
def paramsOk : Nat → Bytes → Bool
  | _, [] => true
  | 0, _ :: _ => false
  | fuel + 1, c :: rest =>
    if c = ';' then
      let rest1 := rest.dropWhile isSpaceChar
      let attr := rest1.takeWhile isTokenChar
      if attr.isEmpty then false
      else
        match rest1.dropWhile isTokenChar with
        | [] => false
        | c2 :: rest2 =>
          if c2 = '=' then
            let v := rest2.takeWhile isTokenChar
            if v.isEmpty then false else paramsOk fuel (rest2.dropWhile isTokenChar)
          else false
    else false

/-- Model of mime.ParseMediaType restricted to the repository's needs: the
part before the first semicolon, trimmed and lowercased, is the media
type; parameters are validated and discarded; an invalid media type or
parameter section is an error (none). -/
def parseMediaType (v : Bytes) : Option Bytes :=
  let base := v.takeWhile (fun c => !(c = ';'))
  let params := v.dropWhile (fun c => !(c = ';'))
  let mt := (trimSpaces base).map Char.toLower
  if checkMediaType mt && paramsOk params.length params then some mt else none

/-! ### The request builder (the builder source file of the repository) -/

/-- The error kinds the builder can report. -/
inductive Err where
  | mediaTypeParse
  | marshalErr
  | unmarshalErr
  | unsupportedContentType (ct : Bytes)
  | unexpectedStatus (code : Int)
  | createRequest
  | transport
deriving DecidableEq, Repr

/-- The builder state: Go struct RequestBuilder. A nil header map is
modelled as none. -/
structure RequestBuilder where
  body : Option Payload
  url : String
  httpMethod : String
  contentType : Bytes
  expectedStatusCodes : List Int
  header : Option Header
deriving DecidableEq, Repr

/-- Go func New: default content type JSON, default accepted status {200}. -/
def New (httpMethod url : String) (body : Option Payload) : RequestBuilder :=
  { body := body
    url := url
    httpMethod := httpMethod
    expectedStatusCodes := [200]
    contentType := MIMEApplicationJson
    header := none }

def ContentType (b : RequestBuilder) (contentType : Bytes) : RequestBuilder :=
  { b with contentType := contentType }

def StatusIs (b : RequestBuilder) (status : Int) : RequestBuilder :=
  { b with expectedStatusCodes := [status] }

def StatusIn (b : RequestBuilder) (statuses : List Int) : RequestBuilder :=
  { b with expectedStatusCodes := statuses }

def AddHeader (b : RequestBuilder) (key value : Bytes) : RequestBuilder :=
  match b.header with
  | none => { b with header := some (assocAdd [] key value) }
  | some h => { b with header := some (assocAdd h key value) }

def SetHeader (b : RequestBuilder) (key value : Bytes) : RequestBuilder :=
  match b.header with
  | none => { b with header := some (assocSet [] key value) }
  | some h => { b with header := some (assocSet h key value) }

/-- Go method resolveContentType: with a nil body, return http.NoBody at
once (empty bytes); otherwise set the Content-Type header to the raw
content type, strip parameters into the stored content type, and marshal
the body with the codec the stripped media type selects. Marshaling a
modelled payload never fails, so the marshal error branches of the Go
code have no counterpart here. -/
def resolveContentType (b : RequestBuilder) : Except Err (RequestBuilder × Bytes) :=
  match b.body with
  | none => .ok (b, [])
  | some payload =>
    let b1 := SetHeader b HeaderContentType b.contentType
    match parseMediaType b1.contentType with
    | none => .error .mediaTypeParse
    | some mt =>
      let b2 := { b1 with contentType := mt }
      if mt = MIMEApplicationJson then .ok (b2, jsonMarshalP payload)
      else if mt = MIMEApplicationXml ∨ mt = MIMETextXml then .ok (b2, xmlMarshalP payload)
      else .error (.unsupportedContentType mt)

/-- The transport ready request: Go http.Request as far as the repository
reads it (URL and method validation of http.NewRequestWithContext is not
modelled). -/
structure HttpRequest where
  method : String
  url : String
  header : Option Header
  body : Bytes
deriving DecidableEq, Repr

/-- Go method Build: resolve the content type and body, then assemble the
request; req.Header is the builder header, exactly as Go assigns it. -/
def Build (b : RequestBuilder) : Except Err (RequestBuilder × HttpRequest) :=
  match resolveContentType b with
  | .error e => .error e
  | .ok (b2, bodyBytes) =>
    .ok (b2, { method := b2.httpMethod, url := b2.url, header := b2.header, body := bodyBytes })

/-- The response as far as the repository reads it. -/
structure Response where
  statusCode : Int
  body : Bytes
deriving DecidableEq, Repr

/-- Go method unmarshalResponse: decode the response bytes with the codec
selected by the stored content type into the caller target (whose type
information is the shape). -/
def unmarshalResponse (b : RequestBuilder) (shape : Shape) (respBody : Bytes) :
    Except Err Payload :=
  if b.contentType = MIMEApplicationJson then
    match jsonUnmarshalShape shape respBody with
    | some p => .ok p
    | none => .error .unmarshalErr
  else if b.contentType = MIMEApplicationXml ∨ b.contentType = MIMETextXml then
    match xmlUnmarshalShape shape respBody with
    | some p => .ok p
    | none => .error .unmarshalErr
  else .error (.unsupportedContentType b.contentType)

/-- Go method validateStatusCode: an empty accepted list is replaced by
{200}; then the response status must be a member. -/
def validateStatusCode (b : RequestBuilder) (resp : Response) : RequestBuilder × Option Err :=
  let codes := if b.expectedStatusCodes.isEmpty then [200] else b.expectedStatusCodes
  ({ b with expectedStatusCodes := codes },
    if codes.contains resp.statusCode then none
    else some (.unexpectedStatus resp.statusCode))

/-- Go method Do: build, send through the injected transport, validate the
status, decode the body. -/
def Do (b : RequestBuilder) (doer : HttpRequest → Except Unit Response) (shape : Shape) :
    Except Err (RequestBuilder × Response × Payload) :=
  match Build b with
  | .error e => .error e
  | .ok (b1, req) =>
    match doer req with
    | .error _ => .error .transport
    | .ok resp =>
      match validateStatusCode b1 resp with
      | (_, some e) => .error e
      | (b2, none) =>
        match unmarshalResponse b2 shape resp.body with
        | .error e => .error e
        | .ok p => .ok (b2, resp, p)

/-! ### Helper lemmas about the builder operations -/

@[simp] theorem SetHeader_body (b : RequestBuilder) (k v : Bytes) :
    (SetHeader b k v).body = b.body := by
  unfold SetHeader; cases b.header <;> rfl

@[simp] theorem SetHeader_url (b : RequestBuilder) (k v : Bytes) :
    (SetHeader b k v).url = b.url := by
  unfold SetHeader; cases b.header <;> rfl

@[simp] theorem SetHeader_httpMethod (b : RequestBuilder) (k v : Bytes) :
    (SetHeader b k v).httpMethod = b.httpMethod := by
  unfold SetHeader; cases b.header <;> rfl

@[simp] theorem SetHeader_contentType (b : RequestBuilder) (k v : Bytes) :
    (SetHeader b k v).contentType = b.contentType := by
  unfold SetHeader; cases b.header <;> rfl

@[simp] theorem SetHeader_expectedStatusCodes (b : RequestBuilder) (k v : Bytes) :
    (SetHeader b k v).expectedStatusCodes = b.expectedStatusCodes := by
  unfold SetHeader; cases b.header <;> rfl

theorem lookupMember_assocSet (h : Header) (k v : Bytes) :
    lookupMember (assocSet h k v) k = some [v] := by
  induction h with
  | nil => simp [assocSet, lookupMember]
  | cons e rest ih =>
    obtain ⟨k2, vs⟩ := e
    by_cases hk : k2 = k
    · simp [assocSet, hk, lookupMember]
    · simp [assocSet, hk, lookupMember, ih]

theorem headerGet_SetHeader (b : RequestBuilder) (k v : Bytes) :
    headerGet (SetHeader b k v).header k = some [v] := by
  unfold SetHeader headerGet
  cases b.header with
  | none => simp [lookupMember_assocSet]
  | some h => simp [lookupMember_assocSet]

theorem contains_iff_mem (l : List Int) (x : Int) : l.contains x = true ↔ x ∈ l := by
  simp [List.contains]

/-- The accepted status set as the spec words it: the stored list, or
{200} when it is unset (empty). -/
def specAcceptedSet (b : RequestBuilder) : List Int :=
  if b.expectedStatusCodes = [] then [200] else b.expectedStatusCodes

theorem defaulted_codes_eq_specAcceptedSet (b : RequestBuilder) :
    (if b.expectedStatusCodes.isEmpty then [200] else b.expectedStatusCodes) =
      specAcceptedSet b := by
  unfold specAcceptedSet
  by_cases h : b.expectedStatusCodes = []
  · simp [h]
  · simp [h, List.isEmpty_iff]

theorem pmt_json : parseMediaType MIMEApplicationJson = some MIMEApplicationJson := by decide

theorem pmt_xml : parseMediaType MIMEApplicationXml = some MIMEApplicationXml := by decide

theorem pmt_textxml : parseMediaType MIMETextXml = some MIMETextXml := by decide

/-! ### Concrete example data (mirrors the repository test fixtures) -/

def exUrl : String := "https://example.com/api/v1/endpoint"

def exPayload : Payload :=
  [("id".toList, .int 6), ("name".toList, .str "jack".toList), ("isAdmin".toList, .bool true)]

def exBuilderJson : RequestBuilder := New "GET" exUrl (some exPayload)

/-! ### Claim C1 -/

/-- Claim C1: for every payload and every supported content type
(application/json, application/xml, text/xml), the body bytes produced on
the request side by resolveContentType decode back to the identical
payload through unmarshalResponse run on the builder state that
resolveContentType returns; stated over the modelled codec fragment
(wfPayload). -/
theorem C1_roundtrip (b : RequestBuilder) (p : Payload)
    (hb : b.body = some p)
    (hct : b.contentType = MIMEApplicationJson ∨ b.contentType = MIMEApplicationXml ∨
      b.contentType = MIMETextXml)
    (hwf : wfPayload p) :
    ∃ b2 bytes, resolveContentType b = .ok (b2, bytes) ∧
      unmarshalResponse b2 (shapeOf p) bytes = .ok p := by
  have hne1 : ¬(MIMEApplicationXml = MIMEApplicationJson) := by decide
  have hne2 : ¬(MIMETextXml = MIMEApplicationJson) := by decide
  have hor1 : MIMEApplicationXml = MIMEApplicationXml ∨ MIMEApplicationXml = MIMETextXml :=
    Or.inl rfl
  have hor2 : MIMETextXml = MIMEApplicationXml ∨ MIMETextXml = MIMETextXml := Or.inr rfl
  unfold resolveContentType
  rw [hb]
  simp only [SetHeader_contentType]
  rcases hct with hj | hx | ht
  · rw [hj]
    simp only [pmt_json, eq_self_iff_true, if_true]
    refine ⟨_, _, rfl, ?_⟩
    unfold unmarshalResponse
    simp only [eq_self_iff_true, if_true]
    rw [jsonUnmarshalShape_marshal p hwf]
  · rw [hx]
    simp only [pmt_xml, if_neg hne1, if_pos hor1]
    refine ⟨_, _, rfl, ?_⟩
    unfold unmarshalResponse
    simp only [if_neg hne1, if_pos hor1]
    rw [xmlUnmarshalShape_marshal p hwf]
    simp
  · rw [ht]
    simp only [pmt_textxml, if_neg hne2, if_pos hor2]
    refine ⟨_, _, rfl, ?_⟩
    unfold unmarshalResponse
    simp only [if_neg hne2, if_pos hor2]
    rw [xmlUnmarshalShape_marshal p hwf]
    simp

/-- Witness for C1 at the repository test payload under JSON. -/
theorem C1_roundtrip_witness :
    ∃ b2 bytes, resolveContentType exBuilderJson = .ok (b2, bytes) ∧
      unmarshalResponse b2 (shapeOf exPayload) bytes = .ok exPayload :=
  C1_roundtrip exBuilderJson exPayload rfl (Or.inl rfl) (by decide)

/-! ### Claim C2 -/

/-- Claim C2: validateStatusCode returns no error exactly when the
response status code is in the accepted set, where the accepted set is the
stored list, defaulting to {200} when that list is empty; New itself
stores {200}. -/
theorem C2_validateStatusCode :
    (∀ (b : RequestBuilder) (resp : Response),
      (validateStatusCode b resp).2 = none ↔ resp.statusCode ∈ specAcceptedSet b) ∧
    (∀ (m u : String) (bd : Option Payload), (New m u bd).expectedStatusCodes = [200]) := by
  constructor
  · intro b resp
    unfold validateStatusCode
    simp only [defaulted_codes_eq_specAcceptedSet]
    by_cases hm : resp.statusCode ∈ specAcceptedSet b
    · simp [(contains_iff_mem _ _).mpr hm, hm]
    · rw [if_neg (fun hc => hm ((contains_iff_mem _ _).mp hc))]
      simp [hm]
  · intro m u bd
    rfl

/-! ### Claim C3 -/

/-- Counterexample to C3 as stated: with a nil body, Build succeeds even
for the unsupported content type application/morse-code, because
resolveContentType returns before looking at the content type. -/
theorem C3_counterexample :
    Build (ContentType (New "GET" exUrl none) "application/morse-code".toList) =
      .ok (ContentType (New "GET" exUrl none) "application/morse-code".toList,
        { method := "GET", url := exUrl, header := none, body := [] }) := rfl

/-- Claim C3 (amended): with a non-nil body, a content type that parses to
an unsupported media type fails Build with the unsupported content type
error; and on the response path an unsupported stored content type always
fails unmarshalResponse with the same error kind, for every shape and
body; a nil body builds successfully regardless of content type. -/
theorem C3_amended :
    (∀ (b : RequestBuilder) (p : Payload) (mt : Bytes), b.body = some p →
      parseMediaType b.contentType = some mt →
      mt ≠ MIMEApplicationJson → mt ≠ MIMEApplicationXml → mt ≠ MIMETextXml →
      Build b = .error (.unsupportedContentType mt)) ∧
    (∀ (b : RequestBuilder) (shape : Shape) (bs : Bytes),
      b.contentType ≠ MIMEApplicationJson → b.contentType ≠ MIMEApplicationXml →
      b.contentType ≠ MIMETextXml →
      unmarshalResponse b shape bs = .error (.unsupportedContentType b.contentType)) ∧
    (∀ (b : RequestBuilder), b.body = none →
      Build b = .ok (b, { method := b.httpMethod, url := b.url,
                          header := b.header, body := [] })) := by
  refine ⟨?_, ?_, ?_⟩
  · intro b p mt hb hpmt h1 h2 h3
    unfold Build resolveContentType
    rw [hb]
    simp only [SetHeader_contentType, hpmt, if_neg h1,
      if_neg (fun hor : _ ∨ _ => hor.elim h2 h3)]
  · intro b shape bs h1 h2 h3
    unfold unmarshalResponse
    rw [if_neg h1, if_neg (fun hor => hor.elim h2 h3)]
  · intro b hb
    unfold Build resolveContentType
    rw [hb]

/-- Witness for the amended C3 at a concrete unsupported content type. -/
theorem C3_amended_witness :
    Build (ContentType (New "POST" exUrl (some exPayload)) "application/morse-code".toList) =
      .error (.unsupportedContentType "application/morse-code".toList) ∧
    unmarshalResponse (ContentType (New "POST" exUrl (some exPayload))
        "application/morse-code".toList) [] [] =
      .error (.unsupportedContentType "application/morse-code".toList) :=
  ⟨C3_amended.1 (ContentType (New "POST" exUrl (some exPayload))
      "application/morse-code".toList) exPayload "application/morse-code".toList
      rfl (by decide) (by decide) (by decide) (by decide),
   C3_amended.2.1 (ContentType (New "POST" exUrl (some exPayload))
      "application/morse-code".toList) [] [] (by decide) (by decide) (by decide)⟩

/-! ### Claim C6 -/

def exCtParams : Bytes := "application/json; charset=utf-8".toList

def exBuilderParams : RequestBuilder := ContentType (New "POST" exUrl (some exPayload)) exCtParams

/-- Counterexample to C6 as stated: building with content type
application/json; charset=utf-8 succeeds, but the Content-Type header of
the produced request is the original string with its parameters, not the
stripped media type, because the code sets the header before stripping. -/
theorem C6_counterexample :
    (Build exBuilderParams).toOption.map
        (fun x => (headerGet x.2.header HeaderContentType, x.1.contentType)) =
      some (some [exCtParams], MIMEApplicationJson) ∧
    exCtParams ≠ MIMEApplicationJson := by decide

/-- Claim C6 (amended): with a non-nil body and a content type that parses
to a supported media type, Build succeeds; the request carries a
Content-Type header equal to the original content type string, parameters
included, while the builder stores the parameter stripped media type and
selects the codec with it. -/
theorem C6_amended (b : RequestBuilder) (p : Payload) (mt : Bytes)
    (hb : b.body = some p) (hpmt : parseMediaType b.contentType = some mt)
    (hok : mt = MIMEApplicationJson ∨ mt = MIMEApplicationXml ∨ mt = MIMETextXml) :
    ∃ b2 req, Build b = .ok (b2, req) ∧
      headerGet req.header HeaderContentType = some [b.contentType] ∧
      b2.contentType = mt := by
  have hne1 : ¬(MIMEApplicationXml = MIMEApplicationJson) := by decide
  have hne2 : ¬(MIMETextXml = MIMEApplicationJson) := by decide
  have hor1 : MIMEApplicationXml = MIMEApplicationXml ∨ MIMEApplicationXml = MIMETextXml :=
    Or.inl rfl
  have hor2 : MIMETextXml = MIMEApplicationXml ∨ MIMETextXml = MIMETextXml := Or.inr rfl
  unfold Build resolveContentType
  rw [hb]
  simp only [SetHeader_contentType]
  rcases hok with hj | hx | ht
  · subst hj
    simp only [hpmt, eq_self_iff_true, if_true]
    exact ⟨_, _, rfl, headerGet_SetHeader b HeaderContentType b.contentType, rfl⟩
  · subst hx
    simp only [hpmt, if_neg hne1, if_pos hor1]
    exact ⟨_, _, rfl, headerGet_SetHeader b HeaderContentType b.contentType, rfl⟩
  · subst ht
    simp only [hpmt, if_neg hne2, if_pos hor2]
    exact ⟨_, _, rfl, headerGet_SetHeader b HeaderContentType b.contentType, rfl⟩

/-- Witness for the amended C6 at the parameterized JSON content type. -/
theorem C6_amended_witness :
    ∃ b2 req, Build exBuilderParams = .ok (b2, req) ∧
      headerGet req.header HeaderContentType = some [exBuilderParams.contentType] ∧
      b2.contentType = MIMEApplicationJson :=
  C6_amended exBuilderParams exPayload MIMEApplicationJson rfl (by decide) (Or.inl rfl)

/-! ### Claim C7 -/

/-- Counterexample to C7 as stated: Build(GET, url, nil) succeeds with an
empty body, but the produced request has no Content-Type header at all
(the header map is nil), rather than a default application/json header. -/
theorem C7_counterexample :
    (Build (New "GET" exUrl none)).toOption.map
        (fun x => (x.2.body, headerGet x.2.header HeaderContentType)) =
      some ([], none) := by decide

/-- Claim C7 (amended): for every URL, building a GET request with a nil
body succeeds, leaves the builder untouched, and yields a request with an
empty body and no Content-Type header; the builder field itself keeps the
default application/json content type. -/
theorem C7_amended (url : String) :
    Build (New "GET" url none) =
      .ok (New "GET" url none,
        { method := "GET", url := url, header := none, body := [] }) ∧
    headerGet (none : Option Header) HeaderContentType = none ∧
    (New "GET" url none).contentType = MIMEApplicationJson :=
  ⟨rfl, rfl, rfl⟩

/-! ### Claim C8 -/

def exBuilderJson2 : RequestBuilder :=
  { exBuilderJson with header := some [(HeaderContentType, [MIMEApplicationJson])] }

def exReqJson : HttpRequest :=
  { method := "GET", url := exUrl,
    header := some [(HeaderContentType, [MIMEApplicationJson])],
    body := jsonMarshalP exPayload }

/-- Counterexample to C8 as stated: Build mutates the descriptor; with the
default JSON content type and a non-nil body, the builder that Build
returns has a Content-Type header entry while the original header map was
nil. -/
theorem C8_counterexample :
    (Build exBuilderJson).toOption.map (fun x => x.1.header) =
      some (some [(HeaderContentType, [MIMEApplicationJson])]) ∧
    exBuilderJson.header = none := by decide

/-- Claim C8 (amended): Build never changes the method, URL, body, or
accepted status codes; with a nil body it changes nothing at all, and with
a non-nil body its only changes are storing the parameter stripped content
type and setting the Content-Type header. validateStatusCode, run during
Do, changes no field except replacing an empty accepted status list with
{200}. -/
theorem C8_amended :
    (∀ (b b2 : RequestBuilder) (req : HttpRequest), Build b = .ok (b2, req) →
      b2.httpMethod = b.httpMethod ∧ b2.url = b.url ∧ b2.body = b.body ∧
      b2.expectedStatusCodes = b.expectedStatusCodes ∧
      (b.body = none → b2 = b) ∧
      (b.body ≠ none → parseMediaType b.contentType = some b2.contentType ∧
        headerGet b2.header HeaderContentType = some [b.contentType])) ∧
    (∀ (b : RequestBuilder) (resp : Response),
      (validateStatusCode b resp).1.httpMethod = b.httpMethod ∧
      (validateStatusCode b resp).1.url = b.url ∧
      (validateStatusCode b resp).1.body = b.body ∧
      (validateStatusCode b resp).1.contentType = b.contentType ∧
      (validateStatusCode b resp).1.header = b.header ∧
      (validateStatusCode b resp).1.expectedStatusCodes = specAcceptedSet b) := by
  constructor
  · intro b b2 req h
    unfold Build resolveContentType at h
    cases hbody : b.body with
    | none =>
      rw [hbody] at h
      simp only [Except.ok.injEq, Prod.mk.injEq] at h
      obtain ⟨hb2, -⟩ := h
      subst hb2
      exact ⟨rfl, rfl, by simp [hbody], rfl, fun _ => rfl,
        fun hne => (hne (by simp [hbody])).elim⟩
    | some p0 =>
      rw [hbody] at h
      simp only [SetHeader_contentType] at h
      cases hp : parseMediaType b.contentType with
      | none =>
        simp only [hp] at h
        exact absurd h (by simp)
      | some mt =>
        by_cases h1 : mt = MIMEApplicationJson
        · simp only [hp, if_pos h1, Except.ok.injEq, Prod.mk.injEq] at h
          obtain ⟨hb2, -⟩ := h
          subst hb2
          refine ⟨by simp, by simp, by simp [hbody], by simp, ?_, ?_⟩
          · intro hc; exact absurd hc (by simp)
          · intro _
            exact ⟨rfl, headerGet_SetHeader b HeaderContentType b.contentType⟩
        · by_cases h2 : mt = MIMEApplicationXml ∨ mt = MIMETextXml
          · simp only [hp, if_neg h1, if_pos h2, Except.ok.injEq, Prod.mk.injEq] at h
            obtain ⟨hb2, -⟩ := h
            subst hb2
            refine ⟨by simp, by simp, by simp [hbody], by simp, ?_, ?_⟩
            · intro hc; exact absurd hc (by simp)
            · intro _
              exact ⟨rfl, headerGet_SetHeader b HeaderContentType b.contentType⟩
          · simp only [hp, if_neg h1, if_neg h2] at h
            exact absurd h (by simp)
  · intro b resp
    unfold validateStatusCode
    exact ⟨rfl, rfl, rfl, rfl, rfl, defaulted_codes_eq_specAcceptedSet b⟩

/-- Witness for the amended C8 at the default JSON builder. -/
theorem C8_amended_witness :
    exBuilderJson2.url = exBuilderJson.url ∧
    exBuilderJson2.body = exBuilderJson.body ∧
    exBuilderJson2.expectedStatusCodes = exBuilderJson.expectedStatusCodes :=
  (fun h => ⟨h.2.1, h.2.2.1, h.2.2.2.1⟩)
    (C8_amended.1 exBuilderJson exBuilderJson2 exReqJson rfl)

/-! ### The mock transport (httpmock package) -/

/-- A Go value handed to the mock as an expected body: a primitive, a
struct (fields kept in declaration order by json.Marshal), a map (fields
marshaled in sorted key order, as Go does), or a pointer to a value. -/
inductive GoVal where
  | lit (l : Lit)
  | strct (fields : List (Bytes × Lit))
  | map (fields : List (Bytes × Lit))
  | ptr (v : GoVal)
deriving DecidableEq, Repr

/-- Lexicographic byte order on ASCII strings, the order Go uses for map
keys during marshaling. -/
def bytesLe : Bytes → Bytes → Bool
  | [], _ => true
  | _ :: _, [] => false
  | a :: as, b :: bs => if a = b then bytesLe as bs else decide (a < b)

def insertSorted (e : Bytes × Lit) : List (Bytes × Lit) → List (Bytes × Lit)
  | [] => [e]
  | f :: rest => if bytesLe e.1 f.1 then e :: f :: rest else f :: insertSorted e rest

def sortByKey : List (Bytes × Lit) → List (Bytes × Lit)
  | [] => []
  | e :: rest => insertSorted e (sortByKey rest)

/-- Go json.Marshal of the expected body value; a pointer marshals its
pointee (though the matcher panics before ever marshaling a pointer). -/
def goMarshalV : GoVal → Bytes
  | .lit l => jsonEncodeLit l
  | .strct fs => jsonMarshalP fs
  | .map fs => jsonMarshalP (sortByKey fs)
  | .ptr v => goMarshalV v

/-- Go json.Marshal of the expected body: a nil body marshals to null. -/
def goMarshal : Option GoVal → Bytes
  | none => ['n', 'u', 'l', 'l']
  | some v => goMarshalV v

/-- The reflect pointer kind test the matcher applies to the expected
body. -/
def isPtrVal : Option GoVal → Bool
  | some (.ptr _) => true
  | _ => false

/-- An io.ReadCloser style body: its bytes plus a consumed flag. -/
structure BodyStream where
  data : Bytes
  consumed : Bool
deriving DecidableEq, Repr

/-- ioutil.ReadAll: a fresh stream yields its data, an already consumed
one yields nothing; the stream is consumed afterwards. A nil or
http.NoBody request body is the none case and reads as empty. -/
def readAll : Option BodyStream → Bytes × Option BodyStream
  | none => ([], none)
  | some s => (if s.consumed then [] else s.data, some { s with consumed := true })

inductive PanicReason where
  | ptrBody
  | badJson
deriving DecidableEq, Repr

/-- The outcome of a matcher run: a boolean verdict, or a Go panic. -/
inductive MatchOutcome where
  | panicked (r : PanicReason)
  | ok (b : Bool)
deriving DecidableEq, Repr

/-- The canonicalization the mock applies to the actual body bytes:
unmarshal into json.RawMessage, then marshal again. The RawMessage round
trip re-serializes the same value with whitespace compacted and the key
order of the input preserved; modelled as parse then print with the order
preserving printer. Invalid JSON is none (the Go code panics there). -/
def rawCompact (bs : Bytes) : Option Bytes :=
  match jsonParseObj bs with
  | some (ms, []) => some (jsonMarshalP ms)
  | some _ => none
  | none =>
    match parseLit bs with
    | some (l, []) => some (jsonEncodeLit l)
    | _ => none

/-- Go func checkBodyMatch: immediately true when there is no body and
none is expected; a pointer typed expected body panics; otherwise the body
is read fully, replaced by a replayable buffer, canonicalized, and
compared byte for byte with the marshaled expected body. Returns the
verdict together with the request body after the call. -/
def checkBodyMatch (reqBody : Option BodyStream) (wantBody : Option GoVal) :
    MatchOutcome × Option BodyStream :=
  if reqBody.isNone && wantBody.isNone then (.ok true, reqBody)
  else if isPtrVal wantBody then (.panicked .ptrBody, reqBody)
  else
    let r := readAll reqBody
    let newBody : Option BodyStream := some { data := r.1, consumed := false }
    match rawCompact r.1 with
    | none => (.panicked .badJson, newBody)
    | some actual => (.ok (goMarshal wantBody = actual), newBody)

/-- The incoming request as far as the matcher inspects it. -/
structure MockRequest where
  method : String
  url : String
  header : Header
  body : Option BodyStream
deriving DecidableEq, Repr

/-- Go struct MatchOn. -/
structure MatchOn where
  httpMethod : String
  url : String
  header : Header
  body : Option GoVal
deriving DecidableEq, Repr

/-- The header comparison of the matcher: every key present on the actual
request must exist in the expected header with equal values in the same
order. -/
def headerSubset (reqHeader want : Header) : Bool :=
  reqHeader.all (fun kv =>
    match lookupMember want kv.1 with
    | some wantVals => decide (kv.2 = wantVals)
    | none => false)

/-- Go func makeRequestMatcherFunc: compares the method, then the headers,
then the body. The URL field of MatchOn is stored but never consulted.
Returns the verdict and the request with its body possibly replaced. -/
def makeRequestMatcherFunc (matchOn : MatchOn) (request : MockRequest) :
    MatchOutcome × MockRequest :=
  if matchOn.httpMethod ≠ request.method then (.ok false, request)
  else if !(headerSubset request.header matchOn.header) then (.ok false, request)
  else
    let r := checkBodyMatch request.body matchOn.body
    (r.1, { request with body := r.2 })

/-- Go method GET of the mock: the registered expectation matches on
method GET, the given URL, a JSON content type header, and no body. -/
def mockGET (url : String) : MatchOn :=
  { httpMethod := "GET", url := url,
    header := [(HeaderContentType, [MIMEApplicationJson])], body := none }

/-- Go method POST of the mock. -/
def mockPOST (url : String) (body : GoVal) : MatchOn :=
  { httpMethod := "POST", url := url,
    header := [(HeaderContentType, [MIMEApplicationJson])], body := some body }

/-! ### Claim C4 -/

/-- Claim C4 evaluated at the failing input: the matcher canonicalization
(json.RawMessage round trip) preserves the key order of the actual body,
so the JSON object printed with keys in the order b, a does not match the
expected map of the same two fields, while the same object printed in
sorted order does; the third conjunct records that the two actual bodies
are the same object up to key order. -/
theorem C4_code_evaluation :
    (checkBodyMatch
        (some { data := jsonMarshalP [("b".toList, .int 2), ("a".toList, .int 1)],
                consumed := false })
        (some (.map [("a".toList, .int 1), ("b".toList, .int 2)]))).1 = .ok false ∧
    (checkBodyMatch
        (some { data := jsonMarshalP [("a".toList, .int 1), ("b".toList, .int 2)],
                consumed := false })
        (some (.map [("a".toList, .int 1), ("b".toList, .int 2)]))).1 = .ok true ∧
    sortByKey [("b".toList, .int 2), ("a".toList, .int 1)] =
      [("a".toList, .int 1), ("b".toList, .int 2)] := by decide

/-! ### Claim C5 -/

/-- Claim C5 evaluated at the failing input: makeRequestMatcherFunc never
consults the URL, so a GET expectation registered for one URL matches an
incoming GET request to a different URL with matching headers and body. -/
theorem C5_code_evaluation :
    (makeRequestMatcherFunc (mockGET exUrl)
        { method := "GET", url := "https://other.example.com/different",
          header := [(HeaderContentType, [MIMEApplicationJson])], body := none }).1 =
      .ok true ∧
    (mockGET exUrl).url ≠ "https://other.example.com/different" := by decide

/-! ### Claim C9 -/

/-- Claim C9: for every non-empty, unconsumed request body that the body
matcher inspects (the expected body is not pointer typed, so the read is
reached), the request body after the check is a fresh replayable buffer
holding exactly the original bytes, and reading that buffer yields the
same bytes again. -/
theorem C9_body_replay (data : Bytes) (want : Option GoVal)
    (_hne : data ≠ []) (hptr : isPtrVal want = false) :
    (checkBodyMatch (some { data := data, consumed := false }) want).2 =
      some { data := data, consumed := false } ∧
    (readAll (checkBodyMatch (some { data := data, consumed := false }) want).2).1 =
      data := by
  have h2 : (checkBodyMatch (some { data := data, consumed := false }) want).2 =
      some { data := data, consumed := false } := by
    unfold checkBodyMatch
    rw [if_neg (by simp : ¬(((some { data := data, consumed := false } :
          Option BodyStream).isNone && want.isNone) = true))]
    rw [if_neg (by simp [hptr] : ¬(isPtrVal want = true))]
    simp only [readAll]
    cases hrc : rawCompact (if false = true then [] else data) <;> simp [hrc]
  exact ⟨h2, by rw [h2]; simp [readAll]⟩

def exData9 : Bytes := jsonMarshalP [("a".toList, Lit.int 1)]

/-- Witness for C9 at a concrete one field JSON body with no expected
body. -/
theorem C9_body_replay_witness :
    (checkBodyMatch (some { data := exData9, consumed := false }) none).2 =
      some { data := exData9, consumed := false } ∧
    (readAll (checkBodyMatch (some { data := exData9, consumed := false }) none).2).1 =
      exData9 :=
  C9_body_replay exData9 none (by decide) rfl

/-! ### Claim C10 -/

/-- Claim C10: the pointer panic branch of checkBodyMatch is taken exactly
when the expected body is pointer typed: every pointer typed expectation
panics there (it cannot reach the early no-body return, whose guard needs
a nil expected body), and no other expectation ever produces that panic. -/
theorem C10_ptr_panic (reqBody : Option BodyStream) (want : Option GoVal) :
    (checkBodyMatch reqBody want).1 = .panicked .ptrBody ↔
      ∃ v, want = some (.ptr v) := by
  by_cases hptr : isPtrVal want = true
  · obtain ⟨v, rfl⟩ : ∃ v, want = some (.ptr v) := by
      cases want with
      | none => simp [isPtrVal] at hptr
      | some g =>
        cases g with
        | ptr v => exact ⟨v, rfl⟩
        | lit l => simp [isPtrVal] at hptr
        | strct fs => simp [isPtrVal] at hptr
        | map fs => simp [isPtrVal] at hptr
    refine iff_of_true ?_ ⟨v, rfl⟩
    unfold checkBodyMatch
    simp [isPtrVal]
  · constructor
    · intro h
      exfalso
      unfold checkBodyMatch at h
      by_cases hg : (reqBody.isNone && want.isNone) = true
      · rw [if_pos hg] at h
        simp at h
      · rw [if_neg hg, if_neg hptr] at h
        cases hrc : rawCompact (readAll reqBody).1 <;> simp [hrc] at h
    · rintro ⟨v, rfl⟩
      simp [isPtrVal] at hptr

end HttpRequestProof
